import Mathlib

/-!
# Verification of the dogArm motion/kinematics layer

Shallow embedding of the dogArm host software
(`software/control/robot_controller.py`,
`software/kinematics/inverse_kinematics.py`,
`software/calligraphy/path_planner.py`) together with proofs of the
spec claims about it.

Conventions of the embedding:

* The serial transport is modelled by a *script*: a list of
  `Option String` entries, one per command/response exchange.
  `some r` is the (already stripped) line read back, `none` is an
  exchange that raised inside `send_command` (caught there, surfaced
  as a `None` response).  An exhausted script models a read timeout:
  `readline` then yields the empty line `""`.
* Python exceptions escaping a function are modelled by `Except.error`
  (for parsers) and by dedicated `crash` outcomes for the controller;
  the unbounded busy-wait of `move_to` on a script that never reports
  completion is modelled by a `hang` outcome.
* Machine floats are modelled by exact arithmetic: `ℚ` where the code
  only moves strings/flags around, `ℝ` where `sqrt`/trigonometry occur.
-/

/-- Equality on `Except` results is decidable (needed to evaluate the
parser models on concrete responses). -/
instance {ε α : Type} [DecidableEq ε] [DecidableEq α] : DecidableEq (Except ε α) :=
  fun x y =>
  match x, y with
  | Except.ok a, Except.ok b =>
    if h : a = b then Decidable.isTrue (by rw [h])
    else Decidable.isFalse (fun hh => h (by injection hh))
  | Except.ok _, Except.error _ => Decidable.isFalse (fun hh => Except.noConfusion hh)
  | Except.error _, Except.ok _ => Decidable.isFalse (fun hh => Except.noConfusion hh)
  | Except.error e, Except.error f =>
    if h : e = f then Decidable.isTrue (by rw [h])
    else Decidable.isFalse (fun hh => h (by injection hh))

/- ## String helpers (Python `str` operations, kernel-reducible) -/

/-- The characters after the first occurrence of `pat` in `s`
(`none` when `pat` does not occur).  For nonempty `pat`,
`(afterFirst pat s).isSome` is Python `pat in s`, and the `some` value
starts Python `s.split(pat)[1]`. -/
def afterFirst (pat : List Char) : List Char → Option (List Char)
  | [] => if pat = [] then some [] else none
  | c :: rest =>
    if pat.isPrefixOf (c :: rest) then some (List.drop (pat.length - 1) rest)
    else afterFirst pat rest

/-- The characters before the first occurrence of `pat` (all of them
when `pat` does not occur).  Applied to `afterFirst`'s result this is
Python `s.split(pat)[1]`. -/
def beforeFirst (pat : List Char) : List Char → List Char
  | [] => []
  | c :: rest =>
    if pat.isPrefixOf (c :: rest) then []
    else c :: beforeFirst pat rest

/-- Python `s.split(sep)` for a single-character separator. -/
def splitOnChar (sep : Char) : List Char → List (List Char)
  | [] => [[]]
  | c :: rest =>
    let r := splitOnChar sep rest
    if c = sep then [] :: r
    else
      match r with
      | h :: t => (c :: h) :: t
      | [] => [[c]]

/- ## Robot controller (`software/control/robot_controller.py`) -/

/-- Python `pat in s` for a nonempty pattern `pat`. -/
def containsSub (s pat : String) : Bool :=
  (afterFirst pat.toList s.toList).isSome

/-- Python `s.split(pat)[1]` for a nonempty `pat` occurring in `s`:
the text between the first and the second occurrence of `pat`. -/
def splitPart1 (s pat : String) : List Char :=
  beforeFirst pat.toList ((afterFirst pat.toList s.toList).getD [])

/-- Python truthiness test `response and pat in response` used on every
response guard: the response is present, nonempty and holds `pat`. -/
def truthyContains : Option String → String → Bool
  | none, _ => false
  | some r, pat => (!(r == "")) && containsSub r pat

/-- The mutable fields of `RobotController` that the control flow reads:
`serial_open` stands for `self.serial is not None and self.serial.is_open`. -/
structure CState where
  serial_open : Bool
  is_connected : Bool
  is_homed : Bool
deriving DecidableEq

/-- `send_command`: refuses with `None` (and no transport I/O) when not
connected; otherwise writes the command line and reads one response from
the script.  Returns (response, remaining script, write log). -/
def send_command (c : CState) (script : List (Option String)) (cmd : String) :
    Option String × List (Option String) × List String :=
  if c.is_connected then
    match script with
    | [] => (some "", [], [cmd])
    | r :: rest => (r, rest, [cmd])
  else (none, script, [])

/-- `connect`: on transport-open success sets the connected flags.
`is_homed` is left untouched (as in the source). -/
def connect (c : CState) (openOk : Bool) : Bool × CState :=
  if openOk then (true, { c with serial_open := true, is_connected := true })
  else (false, c)

/-- `disconnect`: closes the transport when it is open.  Only
`is_connected` is cleared; `is_homed` is left untouched (as in the
source). -/
def disconnect (c : CState) : CState :=
  if c.serial_open then { c with serial_open := false, is_connected := false }
  else c

/-- `home`: sends `HOME`, sets `is_homed` only on an `OK` response. -/
def home (c : CState) (script : List (Option String)) :
    Bool × CState × List (Option String) × List String :=
  let r := send_command c script "HOME"
  if truthyContains r.1 "OK" then (true, { c with is_homed := true }, r.2.1, r.2.2)
  else (false, c, r.2.1, r.2.2)

/-- One `key:value` item list of a STATUS response:
`key, value = item.split(':')` raises `ValueError` (modelled
`Except.error ()`) unless the split has exactly two fields;
`status[key.lower()] = (value == '1')`. -/
def parseItems : List (List Char) → Except Unit (List (String × Bool))
  | [] => Except.ok []
  | item :: rest =>
    match splitOnChar ':' item with
    | [k, v] =>
      (parseItems rest).map (fun l => (String.mk (k.map Char.toLower), v == ['1']) :: l)
    | _ => Except.error ()

/-- A Python dict built by inserting the pairs in order, then
`dict.get k d`: the last binding of `k` wins, default `d` if absent. -/
def dictGet (m : List (String × Bool)) (k : String) (d : Bool) : Bool :=
  match m.reverse.find? (fun p => p.1 == k) with
  | some p => p.2
  | none => d

/-- The parsing part of `get_status` applied to one response:
`None`-response or a line without `STATUS:` gives `None`; otherwise the
text after the first `STATUS:` is split on `,` and each item on `:`
(which can raise, hence `Except`). -/
def get_status_of : Option String → Except Unit (Option (List (String × Bool)))
  | none => Except.ok none
  | some r =>
    if (!(r == "")) && containsSub r "STATUS:" then
      (parseItems (splitOnChar ',' (splitPart1 r "STATUS:"))).map some
    else Except.ok none

/-- `get_status`: one `STATUS` exchange followed by parsing. -/
def get_status (c : CState) (script : List (Option String)) :
    Except Unit (Option (List (String × Bool))) × List (Option String) × List String :=
  let r := send_command c script "STATUS"
  (get_status_of r.1, r.2.1, r.2.2)

/-- Modelled from the spec: Python `float()` on the plain decimal
literals the `POS:{x},{y},{z}` protocol field carries (§6 of the spec;
optional sign, digits, optional fraction).  Any other string raises
`ValueError`, modelled by `none`. -/
def pyFloat? (s : List Char) : Option ℚ :=
  let digitsVal : List Char → ℕ := fun l => l.foldl (fun n c => 10 * n + (c.toNat - 48)) 0
  let core : List Char → Option ℚ := fun body =>
    match splitOnChar '.' body with
    | [ip] =>
      if ip ≠ [] ∧ ip.all Char.isDigit then some ((digitsVal ip : ℕ) : ℚ) else none
    | [ip, fp] =>
      if ip ++ fp ≠ [] ∧ (ip ++ fp).all Char.isDigit then
        some (((digitsVal (ip ++ fp) : ℕ) : ℚ) / (10 : ℚ) ^ fp.length)
      else none
    | _ => none
  match s with
  | '-' :: body => (core body).map (fun q => -q)
  | '+' :: body => core body
  | body => core body

/-- The parsing part of `get_position` applied to one response:
`None`-response or a line without `POS:` gives `None`; otherwise the
text after the first `POS:` is split on `,` and each piece run through
`float` (which can raise, hence `Except`). -/
def get_position_of : Option String → Except Unit (Option (List ℚ))
  | none => Except.ok none
  | some r =>
    if (!(r == "")) && containsSub r "POS:" then
      match (splitOnChar ',' (splitPart1 r "POS:")).mapM pyFloat? with
      | some qs => Except.ok (some qs)
      | none => Except.error ()
    else Except.ok none

/-- `get_position`: one `POS` exchange followed by parsing. -/
def get_position (c : CState) (script : List (Option String)) :
    Except Unit (Option (List ℚ)) × List (Option String) × List String :=
  let r := send_command c script "POS"
  (get_position_of r.1, r.2.1, r.2.2)

/-- Outcome of the `while True` completion poll of `move_to`. -/
inductive PollRes where
  | done (polls : Nat) (rest : List (Option String))
  | crash (polls : Nat)
  | hang
deriving DecidableEq

/-- Count one more poll on the way out of the loop. -/
def PollRes.bump : PollRes → PollRes
  | done k rest => done (k + 1) rest
  | crash k => crash (k + 1)
  | hang => hang

/-- The `while True: status = get_status(); if status and not
status.get('moving', False): break` loop, one script entry per poll.
An exhausted script means every further poll reads the empty line, the
loop never exits: `hang`.  A poll whose parse raises aborts the whole
call: `crash`. -/
def pollLoop : List (Option String) → PollRes
  | [] => PollRes.hang
  | r :: rest =>
    match get_status_of r with
    | Except.error _ => PollRes.crash 1
    | Except.ok none => (pollLoop rest).bump
    | Except.ok (some st) =>
      if dictGet st "moving" false then (pollLoop rest).bump
      else PollRes.done 1 rest

/-- The `MOVE:{x},{y},{z}` command line. -/
def moveCmd (x y z : ℚ) : String :=
  "MOVE:" ++ toString x ++ "," ++ toString y ++ "," ++ toString z

/-- Final outcome of a `move_to` call. -/
inductive MoveRes where
  | ret (b : Bool)
  | exn
  | hang
deriving DecidableEq

/-- Result, post state, remaining script and write log of `move_to`.
For a `hang` outcome the script and write log fields are not
meaningful (the real call never returns). -/
structure MoveOut where
  result : MoveRes
  state : CState
  script : List (Option String)
  writes : List String
deriving DecidableEq

/-- `move_to`: refused outright (no I/O) when not homed; otherwise the
MOVE command is sent and, only on an `OK` acknowledgement, the STATUS
poll loop runs until the device reports not-moving. -/
def move_to (c : CState) (script : List (Option String)) (x y z : ℚ) : MoveOut :=
  if c.is_homed = false then ⟨MoveRes.ret false, c, script, []⟩
  else
    let r := send_command c script (moveCmd x y z)
    if truthyContains r.1 "OK" then
      match pollLoop r.2.1 with
      | PollRes.done k rest =>
        ⟨MoveRes.ret true, c, rest, r.2.2 ++ List.replicate k "STATUS"⟩
      | PollRes.crash k =>
        ⟨MoveRes.exn, c, [], r.2.2 ++ List.replicate k "STATUS"⟩
      | PollRes.hang => ⟨MoveRes.hang, c, [], r.2.2⟩
    else ⟨MoveRes.ret false, c, r.2.1, r.2.2⟩

/- ## Inverse kinematics (`software/kinematics/inverse_kinematics.py`) -/

noncomputable section

/-- The constructor parameters of `InverseKinematics`: link lengths,
base width and the workspace rectangle set in `__init__`. -/
structure IKCfg where
  l1 : ℝ
  l2 : ℝ
  base_width : ℝ
  min_x : ℝ
  max_x : ℝ
  min_y : ℝ
  max_y : ℝ

/-- The default construction: links 200/200 mm, base 100 mm, workspace
x ∈ [-300, 300], y ∈ [50, 400]. -/
def defaultCfg : IKCfg :=
  { l1 := 200, l2 := 200, base_width := 100
    min_x := -300, max_x := 300, min_y := 50, max_y := 400 }

open Classical in
/-- `is_reachable`: the workspace-rectangle checks followed by the
annulus distance check `min_reach <= distance <= max_reach`. -/
def is_reachable (c : IKCfg) (x y : ℝ) : Bool :=
  if x < c.min_x ∨ x > c.max_x then false
  else if y < c.min_y ∨ y > c.max_y then false
  else
    decide (|c.l1 - c.l2| ≤ Real.sqrt (x ^ 2 + y ^ 2) ∧
      Real.sqrt (x ^ 2 + y ^ 2) ≤ c.l1 + c.l2)

/-- `np.arctan2 y x`, as the argument of the complex number `x + i y`. -/
def atan2 (y x : ℝ) : ℝ := Complex.arg ⟨x, y⟩

/-- `np.degrees`. -/
def degrees (r : ℝ) : ℝ := r * 180 / Real.pi

/-- The law-of-cosines argument computed inside `solve`:
`(l1**2 + l2**2 - distance**2) / (2 * l1 * l2)`. -/
def cos_elbow (c : IKCfg) (x y : ℝ) : ℝ :=
  (c.l1 ^ 2 + c.l2 ^ 2 - Real.sqrt (x ^ 2 + y ^ 2) ^ 2) / (2 * c.l1 * c.l2)

open Classical in
/-- `solve`: guard on `is_reachable`, guard on the annulus, guard on the
raw law-of-cosines argument (strictly outside `[-1, 1]` is rejected,
there is no clamping step in the source), then the angle computation. -/
def solve (c : IKCfg) (x y : ℝ) : Option (ℝ × ℝ) :=
  if is_reachable c x y = false then none
  else
    let distance := Real.sqrt (x ^ 2 + y ^ 2)
    let max_reach := c.l1 + c.l2
    let min_reach := |c.l1 - c.l2|
    if distance > max_reach ∨ distance < min_reach then none
    else
      if cos_elbow c x y < -1 ∨ cos_elbow c x y > 1 then none
      else
        let elbow_angle := Real.arccos (cos_elbow c x y)
        let base_angle := atan2 y x
        let angle2 := Real.arcsin (c.l2 * Real.sin elbow_angle / distance)
        some (degrees (base_angle - angle2), degrees (base_angle + angle2))

/- ## Path planner (`software/calligraphy/path_planner.py`) -/

/-- `PathPoint`: a path vertex with pen state. -/
@[ext]
structure PathPoint where
  x : ℝ
  y : ℝ
  pen_down : Bool

/-- The scale/offset transform applied to every stroke vertex:
`x' = x*scale + offset_x`, `y' = y*scale + offset_y`. -/
def scalePt (scale offset_x offset_y : ℝ) (p : ℝ × ℝ) : ℝ × ℝ :=
  (p.1 * scale + offset_x, p.2 * scale + offset_y)

/-- The points one stroke contributes to `plan_path`: nothing for an
empty stroke; otherwise a pen-up lead-in at the scaled first vertex,
one pen-down point per vertex, and a pen-up lead-out at the scaled
last vertex (the loop variable's final value in the source). -/
def emitStroke (scale offset_x offset_y : ℝ) : List (ℝ × ℝ) → List PathPoint
  | [] => []
  | p :: tl =>
    let s := scalePt scale offset_x offset_y p
    let e := scalePt scale offset_x offset_y ((p :: tl).getLast (List.cons_ne_nil p tl))
    ⟨s.1, s.2, false⟩ ::
      ((p :: tl).map (fun q =>
        let t := scalePt scale offset_x offset_y q
        (⟨t.1, t.2, true⟩ : PathPoint)) ++ [⟨e.1, e.2, false⟩])

/-- `plan_path`: concatenation of the per-stroke emissions, in stroke
order. -/
def plan_path (strokes : List (List (ℝ × ℝ))) (scale offset_x offset_y : ℝ) :
    List PathPoint :=
  (strokes.map (emitStroke scale offset_x offset_y)).flatten

/-- Euclidean distance between two path points (`np.sqrt(dx**2 + dy**2)`
in `interpolate_path`). -/
def pdist (p q : PathPoint) : ℝ :=
  Real.sqrt ((q.x - p.x) ^ 2 + (q.y - p.y) ^ 2)

/-- The interpolated point at parameter `t` between `a` and `b`
(`current + t * delta`, pen down). -/
def lerpP (a b : PathPoint) (t : ℝ) : PathPoint :=
  { x := a.x + t * (b.x - a.x), y := a.y + t * (b.y - a.y), pen_down := true }

open Classical in
/-- The intermediate points `interpolate_path` inserts between one
adjacent pair: only when both ends are pen-down and their distance
exceeds `step_size`; then `num_steps = ceil(distance/step_size)` and
points are placed at `t = j/num_steps` for `j = 1 .. num_steps-1`. -/
def segPoints (a b : PathPoint) (step_size : ℝ) : List PathPoint :=
  if a.pen_down && b.pen_down then
    if pdist a b > step_size then
      let num_steps := ⌈pdist a b / step_size⌉₊
      (List.range (num_steps - 1)).map (fun (j : ℕ) =>
        lerpP a b (((j : ℝ) + 1) / (num_steps : ℝ)))
    else []
  else []

/-- The main loop of `interpolate_path`: `for i in range(len(path)-1):`
append `path[i]`, then the inserted points for the pair `(i, i+1)`. -/
def interpSegs (step_size : ℝ) : List PathPoint → List PathPoint
  | [] => []
  | [_] => []
  | a :: b :: rest => a :: (segPoints a b step_size ++ interpSegs step_size (b :: rest))

/-- `interpolate_path`: the loop above followed by
`interpolated.append(path[-1])`.  On an empty path `path[-1]` raises
`IndexError`, modelled by `none`. -/
def interpolate_path (path : List PathPoint) (step_size : ℝ) :
    Option (List PathPoint) :=
  match path.getLast? with
  | none => none
  | some plast => some (interpSegs step_size path ++ [plast])

/-- The pairwise bound claimed for interpolated output: any two
consecutive points that are both pen-down are at most `s` apart. -/
def stepRel (s : ℝ) (p q : PathPoint) : Prop :=
  p.pen_down = true → q.pen_down = true → pdist p q ≤ s

/-- A poll response the completion loop keeps waiting on: either it
fails to parse into a status (loop guard `status` falsy) or it parses
with `moving` set. -/
def busyResp (r : Option String) : Prop :=
  get_status_of r = Except.ok none ∨
  ∃ st, get_status_of r = Except.ok (some st) ∧ dictGet st "moving" false = true

/-- A poll response the completion loop stops on: it parses into a
status whose `moving` lookup (default `false`) is `false`. -/
def doneResp (r : Option String) : Prop :=
  ∃ st, get_status_of r = Except.ok (some st) ∧ dictGet st "moving" false = false

end

/- ## Theorems: controller protocol (claims C1, C2, C7, C9, C10) -/

/-- The completion poll stops on the first done response: busy
responses each cost one poll, the done response is the last poll, and
the script after it is untouched. -/
theorem pollLoop_done (pre : List (Option String)) (d : Option String)
    (rest : List (Option String)) (hpre : ∀ r ∈ pre, busyResp r) (hd : doneResp d) :
    pollLoop (pre ++ d :: rest) = PollRes.done (pre.length + 1) rest := by
  induction pre with
  | nil =>
    obtain ⟨st, hst, hm⟩ := hd
    simp [pollLoop, hst, hm]
  | cons r pre ih =>
    have hr := hpre r (by simp)
    have hrest : ∀ x ∈ pre, busyResp x := fun x hx => hpre x (by simp [hx])
    rcases hr with h | ⟨st, hst, hm⟩
    · simp [pollLoop, h, ih hrest, PollRes.bump]
    · simp [pollLoop, hst, hm, ih hrest, PollRes.bump]

/-- C1: a controller that is not homed refuses `move_to` with a failure
result, leaves its state and the transport script unchanged, and
performs zero writes on the transport, for all arguments. -/
theorem moveToNotHomed (c : CState) (script : List (Option String)) (x y z : ℚ)
    (h : c.is_homed = false) :
    move_to c script x y z = ⟨MoveRes.ret false, c, script, []⟩ := by
  simp [move_to, h]

theorem moveToNotHomedWitness :
    move_to ⟨false, false, false⟩ [some "OK"] 1 2 3 =
      ⟨MoveRes.ret false, ⟨false, false, false⟩, [some "OK"], []⟩ :=
  moveToNotHomed ⟨false, false, false⟩ [some "OK"] 1 2 3 rfl

/-- C2: (1) a MOVE acknowledged with an `OK` response polls STATUS
until the first response whose parsed status reports not-moving, then
returns success having polled exactly `pre.length + 1` times, leaving
the rest of the script untouched (no further polling); (2) an absent
or non-`OK` acknowledgement makes `move_to` fail with no STATUS poll
at all and the controller state unchanged. -/
theorem moveToAckPollSpec :
    (∀ (c : CState) (a : String) (pre rest : List (Option String)) (d : Option String)
      (x y z : ℚ),
      c.is_connected = true → c.is_homed = true →
      truthyContains (some a) "OK" = true →
      (∀ r ∈ pre, busyResp r) → doneResp d →
      move_to c (some a :: (pre ++ d :: rest)) x y z =
        ⟨MoveRes.ret true, c, rest,
          moveCmd x y z :: List.replicate (pre.length + 1) "STATUS"⟩) ∧
    (∀ (c : CState) (resp : Option String) (rest : List (Option String)) (x y z : ℚ),
      c.is_connected = true → c.is_homed = true →
      truthyContains resp "OK" = false →
      move_to c (resp :: rest) x y z =
        ⟨MoveRes.ret false, c, rest, [moveCmd x y z]⟩) := by
  constructor
  · intro c a pre rest d x y z hc hh ha hpre hd
    simp [move_to, hh, send_command, hc, ha, pollLoop_done pre d rest hpre hd]
  · intro c resp rest x y z hc hh ha
    simp [move_to, hh, send_command, hc, ha]

theorem moveToAckPollSpecWitness :
    (move_to ⟨true, true, true⟩
        [some "OK", some "STATUS:moving:1", some "STATUS:moving:0"] 1 2 3 =
      ⟨MoveRes.ret true, ⟨true, true, true⟩, [], [moveCmd 1 2 3, "STATUS", "STATUS"]⟩) ∧
    (move_to ⟨true, true, true⟩ [some "FAIL"] 4 5 6 =
      ⟨MoveRes.ret false, ⟨true, true, true⟩, [], [moveCmd 4 5 6]⟩) := by
  constructor
  · have h := moveToAckPollSpec.1 ⟨true, true, true⟩ "OK" [some "STATUS:moving:1"] []
      (some "STATUS:moving:0") 1 2 3 rfl rfl (by decide)
      (by
        intro r hr
        simp only [List.mem_singleton] at hr
        subst hr
        exact Or.inr ⟨[("moving", true)], by decide, by decide⟩)
      ⟨[("moving", false)], by decide, by decide⟩
    simpa [List.replicate] using h
  · exact moveToAckPollSpec.2 ⟨true, true, true⟩ (some "FAIL") [] 4 5 6 rfl rfl (by decide)

/-- C10: in the completion poll, a response that parses into a status
mapping lacking the `moving` key is treated as not-moving: the loop
exits on the first such response and `move_to` returns success. -/
theorem moveToMissingMovingKey (c : CState) (a : String) (r : Option String)
    (st : List (String × Bool)) (rest : List (Option String)) (x y z : ℚ)
    (hc : c.is_connected = true) (hh : c.is_homed = true)
    (ha : truthyContains (some a) "OK" = true)
    (hp : get_status_of r = Except.ok (some st))
    (hk : ∀ p ∈ st, p.1 ≠ "moving") :
    move_to c (some a :: r :: rest) x y z =
      ⟨MoveRes.ret true, c, rest, [moveCmd x y z, "STATUS"]⟩ := by
  have hm : dictGet st "moving" false = false := by
    unfold dictGet
    rw [List.find?_eq_none.2]
    intro p hp'
    have := hk p (List.mem_reverse.1 hp')
    simpa using this
  have := pollLoop_done [] r rest (by simp) ⟨st, hp, hm⟩
  simp only [List.nil_append, List.length_nil, Nat.zero_add] at this
  simp [move_to, hh, send_command, hc, ha, this, List.replicate]

theorem moveToMissingMovingKeyWitness :
    move_to ⟨true, true, true⟩ [some "OK", some "STATUS:homed:1"] 1 2 3 =
      ⟨MoveRes.ret true, ⟨true, true, true⟩, [], [moveCmd 1 2 3, "STATUS"]⟩ :=
  moveToMissingMovingKey ⟨true, true, true⟩ "OK" (some "STATUS:homed:1")
    [("homed", true)] [] 1 2 3 rfl rfl (by decide) (by decide) (by decide)

/-- C9 (code bug): after connect, successful home, disconnect and
reconnect, the source keeps `is_homed` set, so `move_to` is accepted
and writes to the transport without any re-homing — the spec's state
machine (`connect` lands in `Connected`, not `Homed`; MOVE requires a
fresh successful home) says it must be refused. -/
theorem reconnectKeepsHomedFlag :
    (let c1 := (connect ⟨false, false, false⟩ true).2
     let c2 := (home c1 [some "OK"]).2.1
     let c3 := disconnect c2
     let c4 := (connect c3 true).2
     c4.is_homed = true ∧ c4.is_connected = true ∧
     (move_to c4 [some "OK", some "STATUS:moving:0"] 1 2 3).result = MoveRes.ret true ∧
     (move_to c4 [some "OK", some "STATUS:moving:0"] 1 2 3).writes ≠ []) := by
  decide

/-- C7 (counterexample): a response containing `STATUS:` whose item
`abc` does not split into exactly `key:value` makes `get_status` raise
(`ValueError` from tuple unpacking), modelled by `Except.error`. -/
theorem getStatusCrashCounterexample :
    (get_status ⟨true, true, true⟩ [some "STATUS:abc"]).1 = Except.error () := by decide

/-- C7 (amended): `get_status` parses `STATUS:moving:1,homed:1` to
`{moving: true, homed: true}`; any response lacking `STATUS:` (or a
missing response) yields `None`; `get_position` likewise yields `None`
without `POS:` and parses well-formed float triples — but both can
raise on a response that passes these guards with malformed items. -/
theorem getStatusTotalSpec :
    ((get_status ⟨true, true, true⟩ [some "STATUS:moving:1,homed:1"]).1 =
      Except.ok (some [("moving", true), ("homed", true)])) ∧
    (∀ r : String, containsSub r "STATUS:" = false →
      get_status_of (some r) = Except.ok none) ∧
    (get_status_of none = Except.ok none) ∧
    (∀ r : String, containsSub r "POS:" = false →
      get_position_of (some r) = Except.ok none) ∧
    (get_position_of none = Except.ok none) ∧
    ((get_position ⟨true, true, true⟩ [some "POS:1,2,3"]).1 =
      Except.ok (some [1, 2, 3])) ∧
    (get_position_of (some "POS:a,b,c") = Except.error ()) := by
  refine ⟨by decide, ?_, by decide, ?_, by decide, by decide, by decide⟩
  · intro r h
    simp [get_status_of, h]
  · intro r h
    simp [get_position_of, h]

theorem getStatusTotalSpecWitness :
    get_status_of (some "hello") = Except.ok none :=
  getStatusTotalSpec.2.1 "hello" (by decide)

/- ## Theorems: inverse kinematics (claims C3, C6) -/

/-- `is_reachable` succeeds exactly on the workspace rectangle
intersected with the reachable annulus. -/
theorem is_reachable_iff (c : IKCfg) (x y : ℝ) :
    is_reachable c x y = true ↔
      (c.min_x ≤ x ∧ x ≤ c.max_x ∧ c.min_y ≤ y ∧ y ≤ c.max_y ∧
       |c.l1 - c.l2| ≤ Real.sqrt (x ^ 2 + y ^ 2) ∧
       Real.sqrt (x ^ 2 + y ^ 2) ≤ c.l1 + c.l2) := by
  classical
  unfold is_reachable
  split_ifs with h1 h2
  · constructor
    · intro h
      exact absurd h (by simp)
    · intro h
      exfalso
      rcases h1 with hx | hx
      · exact absurd h.1 (not_le.2 hx)
      · exact absurd h.2.1 (not_le.2 hx)
  · constructor
    · intro h
      exact absurd h (by simp)
    · intro h
      exfalso
      rcases h2 with hy | hy
      · exact absurd h.2.2.1 (not_le.2 hy)
      · exact absurd h.2.2.2.1 (not_le.2 hy)
  · push_neg at h1 h2
    rw [decide_eq_true_iff]
    constructor
    · rintro ⟨hmin, hmax⟩
      exact ⟨h1.1, h1.2, h2.1, h2.2, hmin, hmax⟩
    · rintro ⟨_, _, _, _, hmin, hmax⟩
      exact ⟨hmin, hmax⟩

/-- C3: (1) any target outside the workspace rectangle or outside the
annulus `[|l1-l2|, l1+l2]` makes `solve` return `None` and
`is_reachable` return `false`; (2) whenever `solve` returns joint
angles the target distance lies in the annulus and the target lies in
the workspace rectangle. -/
theorem solveReachableSpec (c : IKCfg) (x y : ℝ) :
    ((x < c.min_x ∨ x > c.max_x ∨ y < c.min_y ∨ y > c.max_y ∨
      Real.sqrt (x ^ 2 + y ^ 2) < |c.l1 - c.l2| ∨
      c.l1 + c.l2 < Real.sqrt (x ^ 2 + y ^ 2)) →
      (solve c x y = none ∧ is_reachable c x y = false)) ∧
    (∀ ang, solve c x y = some ang →
      (|c.l1 - c.l2| ≤ Real.sqrt (x ^ 2 + y ^ 2) ∧
       Real.sqrt (x ^ 2 + y ^ 2) ≤ c.l1 + c.l2) ∧
      (c.min_x ≤ x ∧ x ≤ c.max_x ∧ c.min_y ≤ y ∧ y ≤ c.max_y)) := by
  classical
  constructor
  · intro hout
    have hfalse : is_reachable c x y = false := by
      cases hb : is_reachable c x y
      · rfl
      · exfalso
        have hr := (is_reachable_iff c x y).1 hb
        rcases hout with h | h | h | h | h | h
        · exact absurd hr.1 (not_le.2 h)
        · exact absurd hr.2.1 (not_le.2 h)
        · exact absurd hr.2.2.1 (not_le.2 h)
        · exact absurd hr.2.2.2.1 (not_le.2 h)
        · exact absurd hr.2.2.2.2.1 (not_le.2 h)
        · exact absurd hr.2.2.2.2.2 (not_le.2 h)
    exact ⟨by simp [solve, hfalse], hfalse⟩
  · intro ang hsome
    have hb : is_reachable c x y = true := by
      cases hb : is_reachable c x y
      · exfalso
        simp [solve, hb] at hsome
      · rfl
    have hr := (is_reachable_iff c x y).1 hb
    exact ⟨⟨hr.2.2.2.2.1, hr.2.2.2.2.2⟩, hr.1, hr.2.1, hr.2.2.1, hr.2.2.2.1⟩

theorem solveReachableSpecWitness :
    solve defaultCfg 0 0 = none ∧ is_reachable defaultCfg 0 0 = false :=
  (solveReachableSpec defaultCfg 0 0).1
    (Or.inr (Or.inr (Or.inl (by norm_num [defaultCfg]))))

/-- C6: under `solve`'s reachability guard the raw law-of-cosines
argument always lies in `[-1, 1]` (so clamping it to `[-1, 1]` is the
identity and `arccos` only ever receives an in-range argument), the
out-of-range rejection test never fires — `solve` returns `Unreachable`
on that test only for raw values strictly outside `[-1, 1]`, which
cannot occur in exact arithmetic — and `solve` returns angles. -/
theorem solveClampSpec (c : IKCfg) (x y : ℝ) (hl1 : 0 < c.l1) (hl2 : 0 < c.l2)
    (hr : is_reachable c x y = true) :
    (-1 ≤ cos_elbow c x y ∧ cos_elbow c x y ≤ 1) ∧
    max (-1) (min 1 (cos_elbow c x y)) = cos_elbow c x y ∧
    ¬(cos_elbow c x y < -1 ∨ cos_elbow c x y > 1) ∧
    solve c x y ≠ none := by
  classical
  obtain ⟨_, _, _, _, hmin, hmax⟩ := (is_reachable_iff c x y).1 hr
  have hd0 : (0 : ℝ) ≤ Real.sqrt (x ^ 2 + y ^ 2) := Real.sqrt_nonneg _
  have hsq_up : Real.sqrt (x ^ 2 + y ^ 2) ^ 2 ≤ (c.l1 + c.l2) ^ 2 :=
    pow_le_pow_left₀ hd0 hmax 2
  have hsq_lo : (c.l1 - c.l2) ^ 2 ≤ Real.sqrt (x ^ 2 + y ^ 2) ^ 2 := by
    calc (c.l1 - c.l2) ^ 2 = |c.l1 - c.l2| ^ 2 := (sq_abs _).symm
    _ ≤ Real.sqrt (x ^ 2 + y ^ 2) ^ 2 := pow_le_pow_left₀ (abs_nonneg _) hmin 2
  have hpos : (0 : ℝ) < 2 * c.l1 * c.l2 := by positivity
  have hce_hi : cos_elbow c x y ≤ 1 := by
    rw [cos_elbow, div_le_one hpos]
    nlinarith [hsq_lo]
  have hce_lo : -1 ≤ cos_elbow c x y := by
    rw [cos_elbow, le_div_iff₀ hpos]
    nlinarith [hsq_up]
  refine ⟨⟨hce_lo, hce_hi⟩, ?_, ?_, ?_⟩
  · rw [min_eq_right hce_hi, max_eq_right hce_lo]
  · push_neg
    exact ⟨hce_lo, hce_hi⟩
  · simp [solve, hr, not_lt.2 hmax, not_lt.2 hmin, not_lt.2 hce_hi, not_lt.2 hce_lo]

/- ## Theorems: path planner (claims C4, C5, C8) -/

/-- C4: stroke-by-stroke characterisation of `plan_path` — empty
strokes contribute nothing, a non-empty stroke contributes a pen-up
lead-in at the scaled/offset first vertex, one pen-down point per
vertex in order under `x' = x*scale + offset_x`, `y' = y*scale +
offset_y`, and a pen-up lead-out at the scaled/offset last vertex,
strokes concatenated in order — together with the single-stroke
instance from the spec. -/
theorem planPathSpec :
    (∀ scale ox oy : ℝ, plan_path [] scale ox oy = []) ∧
    (∀ (scale ox oy : ℝ) (rest : List (List (ℝ × ℝ))),
      plan_path ([] :: rest) scale ox oy = plan_path rest scale ox oy) ∧
    (∀ (scale ox oy : ℝ) (p : ℝ × ℝ) (tl : List (ℝ × ℝ))
      (rest : List (List (ℝ × ℝ))),
      plan_path ((p :: tl) :: rest) scale ox oy =
        ⟨p.1 * scale + ox, p.2 * scale + oy, false⟩ ::
          ((p :: tl).map
              (fun q => (⟨q.1 * scale + ox, q.2 * scale + oy, true⟩ : PathPoint)) ++
            (⟨((p :: tl).getLast (List.cons_ne_nil p tl)).1 * scale + ox,
              ((p :: tl).getLast (List.cons_ne_nil p tl)).2 * scale + oy, false⟩ ::
              plan_path rest scale ox oy))) ∧
    (plan_path [[(50, 100), (150, 100)]] 1 0 200 =
      [⟨50, 300, false⟩, ⟨50, 300, true⟩, ⟨150, 300, true⟩, ⟨150, 300, false⟩]) := by
  refine ⟨?_, ?_, ?_, ?_⟩
  · intro scale ox oy
    simp [plan_path]
  · intro scale ox oy rest
    simp [plan_path, emitStroke]
  · intro scale ox oy p tl rest
    simp [plan_path, emitStroke, scalePt]
  · norm_num [plan_path, emitStroke, scalePt, List.getLast]

/-- Every input point survives interpolation, in order: the input is a
sublist of the loop output with the final point appended. -/
theorem interp_sublist (s : ℝ) :
    ∀ (path : List PathPoint) (l : PathPoint), path.getLast? = some l →
      path.Sublist (interpSegs s path ++ [l]) := by
  intro path
  induction path with
  | nil =>
    intro l hl
    simp at hl
  | cons a tail ih =>
    intro l hl
    cases tail with
    | nil =>
      simp at hl
      subst hl
      simp [interpSegs]
    | cons b rest =>
      rw [List.getLast?_cons_cons] at hl
      have h2 := (ih l hl).trans
        (List.sublist_append_right (segPoints a b s) (interpSegs s (b :: rest) ++ [l]))
      simp only [interpSegs, List.cons_append, List.append_assoc]
      exact List.Sublist.cons₂ a h2

/-- C8 (counterexample): on the empty path the source evaluates
`path[-1]`, raising `IndexError` — modelled by `none`, so
`interpolate_path` does not return a sequence on every input. -/
theorem interpolateEmptyCounterexample : interpolate_path [] 5 = none := rfl

/-- C8 (amended): on every *non-empty* path `interpolate_path` returns
a sequence at least as long as its input, containing the input as an
in-order sublist, and ending in the input's final point. -/
theorem interpolateTotalSpec (path : List PathPoint) (s : ℝ) (hne : path ≠ []) :
    ∃ out, interpolate_path path s = some out ∧
      path.length ≤ out.length ∧ path.Sublist out ∧
      out.getLast? = path.getLast? := by
  cases hq : path.getLast? with
  | none =>
    exact absurd (by simpa using hq) hne
  | some l =>
    refine ⟨interpSegs s path ++ [l], ?_, ?_, ?_, ?_⟩
    · simp [interpolate_path, hq]
    · exact (interp_sublist s path l hq).length_le
    · exact interp_sublist s path l hq
    · simp [List.getLast?_concat, hq]

theorem interpolateTotalSpecWitness :
    ∃ out,
      interpolate_path [({ x := 0, y := 0, pen_down := true } : PathPoint)] 1 = some out ∧
      ([({ x := 0, y := 0, pen_down := true } : PathPoint)]).length ≤ out.length ∧
      ([({ x := 0, y := 0, pen_down := true } : PathPoint)]).Sublist out ∧
      out.getLast? = ([({ x := 0, y := 0, pen_down := true } : PathPoint)]).getLast? :=
  interpolateTotalSpec [{ x := 0, y := 0, pen_down := true }] 1 (by simp)

/-- Distance between two interpolated points on the same segment. -/
theorem pdist_lerp (a b : PathPoint) {t u : ℝ} (h : t ≤ u) :
    pdist (lerpP a b t) (lerpP a b u) = (u - t) * pdist a b := by
  have hx : (lerpP a b u).x - (lerpP a b t).x = (u - t) * (b.x - a.x) := by
    simp only [lerpP]
    ring
  have hy : (lerpP a b u).y - (lerpP a b t).y = (u - t) * (b.y - a.y) := by
    simp only [lerpP]
    ring
  unfold pdist
  rw [hx, hy,
    show ((u - t) * (b.x - a.x)) ^ 2 + ((u - t) * (b.y - a.y)) ^ 2
        = (u - t) ^ 2 * ((b.x - a.x) ^ 2 + (b.y - a.y) ^ 2) from by ring,
    Real.sqrt_mul (sq_nonneg _), Real.sqrt_sq (sub_nonneg.2 h)]

/-- The interpolated point at `t = 0` is the (pen-down) start point. -/
theorem lerpP_zero (a b : PathPoint) (ha : a.pen_down = true) : lerpP a b 0 = a := by
  have hx : (lerpP a b 0).x = a.x := by
    show a.x + 0 * (b.x - a.x) = a.x
    ring
  have hy : (lerpP a b 0).y = a.y := by
    show a.y + 0 * (b.y - a.y) = a.y
    ring
  exact PathPoint.ext hx hy (by simp [lerpP, ha])

/-- The interpolated point at `t = 1` is the (pen-down) end point. -/
theorem lerpP_one (a b : PathPoint) (hb : b.pen_down = true) : lerpP a b 1 = b := by
  have hx : (lerpP a b 1).x = b.x := by
    show a.x + 1 * (b.x - a.x) = b.x
    ring
  have hy : (lerpP a b 1).y = b.y := by
    show a.y + 1 * (b.y - a.y) = b.y
    ring
  exact PathPoint.ext hx hy (by simp [lerpP, hb])

/-- The inserted points of a far pen-down pair, unfolded. -/
theorem segPoints_far (a b : PathPoint) (s : ℝ) (hpa : a.pen_down = true)
    (hpb : b.pen_down = true) (hfar : pdist a b > s) :
    segPoints a b s =
      (List.range (⌈pdist a b / s⌉₊ - 1)).map
        (fun (j : ℕ) => lerpP a b (((j : ℝ) + 1) / (⌈pdist a b / s⌉₊ : ℝ))) := by
  unfold segPoints
  rw [if_pos (by simp [hpa, hpb]), if_pos hfar]

/-- For a far pen-down pair, start point, inserted points and end point
together are the uniform subdivision of the segment into
`ceil(distance/step)` parts. -/
theorem seg_cons_concat (a b : PathPoint) (s : ℝ) (hs : 0 < s)
    (hpa : a.pen_down = true) (hpb : b.pen_down = true) (hfar : pdist a b > s) :
    a :: (segPoints a b s ++ [b]) =
      (List.range (⌈pdist a b / s⌉₊ + 1)).map
        (fun (i : ℕ) => lerpP a b ((i : ℝ) / (⌈pdist a b / s⌉₊ : ℝ))) := by
  have hn2 : 2 ≤ ⌈pdist a b / s⌉₊ := by
    have h1 : (1 : ℝ) < pdist a b / s := (one_lt_div hs).2 hfar
    have h2 : 1 < ⌈pdist a b / s⌉₊ := Nat.lt_ceil.2 (by exact_mod_cast h1)
    omega
  obtain ⟨m, hm⟩ : ∃ m, ⌈pdist a b / s⌉₊ = m + 2 := ⟨⌈pdist a b / s⌉₊ - 2, by omega⟩
  rw [segPoints_far a b s hpa hpb hfar, hm]
  have hrange : List.range (m + 2 + 1) =
      (0 :: (List.range (m + 1)).map Nat.succ) ++ [m + 2] := by
    rw [← List.range_succ_eq_map, ← List.range_succ]
  rw [hrange]
  simp only [List.map_append, List.map_cons, List.map_nil, List.map_map]
  have h0 : lerpP a b (((0 : ℕ) : ℝ) / ((m + 2 : ℕ) : ℝ)) = a := by
    rw [show (((0 : ℕ) : ℝ) / ((m + 2 : ℕ) : ℝ)) = 0 by norm_num]
    exact lerpP_zero a b hpa
  have h1 : lerpP a b (((m + 2 : ℕ) : ℝ) / ((m + 2 : ℕ) : ℝ)) = b := by
    rw [div_self (by positivity : ((m + 2 : ℕ) : ℝ) ≠ 0)]
    exact lerpP_one a b hpb
  have hmid : ∀ j : ℕ,
      lerpP a b (((Nat.succ j : ℕ) : ℝ) / ((m + 2 : ℕ) : ℝ)) =
        lerpP a b (((j : ℝ) + 1) / ((m + 2 : ℕ) : ℝ)) := by
    intro j
    congr 1
    push_cast
    ring
  rw [show m + 2 - 1 = m + 1 from rfl]
  congr 1
  · exact h0.symm
  · congr 1
    · exact (List.map_congr_left (fun j _ => (hmid j).symm))
    · have hdiv : ((m : ℝ) + 2) / ((m : ℝ) + 2) = 1 := div_self (by positivity)
      simp [hdiv, lerpP_one a b hpb]

/-- Between one adjacent pair, the run `current :: inserted ++ [next]`
satisfies the pen-down spacing bound: uninvolved pairs pass through, a
close pen-down pair is already within the step, and a far pen-down
pair is cut into `ceil(distance/step)` equal pieces of length
`distance/ceil(distance/step) ≤ step`. -/
theorem chain_seg (a b : PathPoint) (s : ℝ) (hs : 0 < s) :
    List.Chain' (stepRel s) (a :: (segPoints a b s ++ [b])) := by
  by_cases hp : a.pen_down = true ∧ b.pen_down = true
  · obtain ⟨hpa, hpb⟩ := hp
    by_cases hfar : pdist a b > s
    · rw [seg_cons_concat a b s hs hpa hpb hfar, List.chain'_map,
        List.chain'_range_succ]
      intro m _
      intro _ _
      have hn1 : (1 : ℝ) < pdist a b / s := (one_lt_div hs).2 hfar
      have hn2 : 1 < ⌈pdist a b / s⌉₊ := Nat.lt_ceil.2 (by exact_mod_cast hn1)
      have hn0 : (0 : ℝ) < (⌈pdist a b / s⌉₊ : ℝ) := by
        exact_mod_cast Nat.lt_of_lt_of_le Nat.zero_lt_one hn2.le
      have hle : ((m : ℝ)) / (⌈pdist a b / s⌉₊ : ℝ) ≤
          ((m.succ : ℕ) : ℝ) / (⌈pdist a b / s⌉₊ : ℝ) := by
        apply (div_le_div_iff_of_pos_right hn0).2
        push_cast
        linarith
      rw [pdist_lerp a b hle,
        show ((m.succ : ℕ) : ℝ) / (⌈pdist a b / s⌉₊ : ℝ) -
            ((m : ℝ)) / (⌈pdist a b / s⌉₊ : ℝ) =
          1 / (⌈pdist a b / s⌉₊ : ℝ) from by push_cast; ring]
      have hda : pdist a b ≤ (⌈pdist a b / s⌉₊ : ℝ) * s := by
        have hc := Nat.le_ceil (pdist a b / s)
        calc pdist a b = (pdist a b / s) * s := by field_simp
        _ ≤ (⌈pdist a b / s⌉₊ : ℝ) * s := mul_le_mul_of_nonneg_right hc hs.le
      calc 1 / (⌈pdist a b / s⌉₊ : ℝ) * pdist a b
          ≤ 1 / (⌈pdist a b / s⌉₊ : ℝ) * ((⌈pdist a b / s⌉₊ : ℝ) * s) :=
            mul_le_mul_of_nonneg_left hda (by positivity)
      _ = s := by field_simp
    · have hseg : segPoints a b s = [] := by
        unfold segPoints
        rw [if_pos (by simp [hpa, hpb]), if_neg hfar]
      rw [hseg]
      simp only [List.nil_append]
      refine List.chain'_cons.2 ⟨?_, List.chain'_singleton b⟩
      intro _ _
      exact le_of_not_lt hfar
  · have hseg : segPoints a b s = [] := by
      unfold segPoints
      rw [if_neg (by simpa [Bool.and_eq_true] using hp)]
    rw [hseg]
    simp only [List.nil_append]
    refine List.chain'_cons.2 ⟨?_, List.chain'_singleton b⟩
    intro h1 h2
    exact absurd ⟨h1, h2⟩ hp

/-- The full interpolated output (loop output plus appended final
point) satisfies the pen-down spacing bound. -/
theorem interp_chain (s : ℝ) (hs : 0 < s) :
    ∀ path : List PathPoint,
      List.Chain' (stepRel s) (interpSegs s path ++ path.getLast?.toList) := by
  intro path
  induction path with
  | nil => simp [interpSegs]
  | cons a tail ih =>
    cases tail with
    | nil => simp [interpSegs]
    | cons b rest =>
      have hhead : (interpSegs s (b :: rest) ++ (b :: rest).getLast?.toList).head? =
          some b := by
        cases rest with
        | nil => simp [interpSegs]
        | cons c rs => simp [interpSegs]
      have hseg := chain_seg a b s hs
      rw [show a :: (segPoints a b s ++ [b]) = (a :: segPoints a b s) ++ [b] from
        by simp] at hseg
      rw [List.chain'_append] at hseg
      obtain ⟨h1, _, h3⟩ := hseg
      rw [List.getLast?_cons_cons,
        show interpSegs s (a :: b :: rest) ++ (b :: rest).getLast?.toList =
          (a :: segPoints a b s) ++
            (interpSegs s (b :: rest) ++ (b :: rest).getLast?.toList) from by
          simp [interpSegs]]
      rw [List.chain'_append]
      refine ⟨h1, ih, ?_⟩
      intro x hx yy hyy
      rw [hhead] at hyy
      have hyb : b = yy := by simpa using hyy
      exact hyb ▸ h3 x hx b (by simp)

/-- C5: (1) between a pen-down pair farther apart than the step the
code inserts exactly `ceil(distance/step) - 1` evenly spaced pen-down
points at parameters `t = j/num_steps`; (2) a pair with a pen-up end
or already within the step gets no inserted points; (3) consequently
every two consecutive pen-down points of the produced output are at
most `step_size` apart. -/
theorem interpolateStepSpec :
    (∀ (a b : PathPoint) (s : ℝ), a.pen_down = true → b.pen_down = true →
      pdist a b > s →
      segPoints a b s =
        (List.range (⌈pdist a b / s⌉₊ - 1)).map
          (fun (j : ℕ) => lerpP a b (((j : ℝ) + 1) / (⌈pdist a b / s⌉₊ : ℝ))) ∧
      (segPoints a b s).length = ⌈pdist a b / s⌉₊ - 1) ∧
    (∀ (a b : PathPoint) (s : ℝ),
      ¬(a.pen_down = true ∧ b.pen_down = true) ∨ pdist a b ≤ s →
      segPoints a b s = []) ∧
    (∀ (path : List PathPoint) (s : ℝ) (out : List PathPoint), 0 < s →
      interpolate_path path s = some out → List.Chain' (stepRel s) out) := by
  refine ⟨?_, ?_, ?_⟩
  · intro a b s hpa hpb hfar
    refine ⟨segPoints_far a b s hpa hpb hfar, ?_⟩
    rw [segPoints_far a b s hpa hpb hfar, List.length_map, List.length_range]
  · intro a b s h
    unfold segPoints
    rcases h with h | h
    · rw [if_neg (by simpa [Bool.and_eq_true] using h)]
    · by_cases hp : (a.pen_down && b.pen_down) = true
      · rw [if_pos hp, if_neg (not_lt.2 h)]
      · rw [if_neg hp]
  · intro path s out hs hout
    unfold interpolate_path at hout
    cases hq : path.getLast? with
    | none =>
      rw [hq] at hout
      simp at hout
    | some l =>
      rw [hq] at hout
      simp only [Option.some.injEq] at hout
      have hchain := interp_chain s hs path
      rw [hq] at hchain
      simp only [Option.toList_some] at hchain
      rw [hout] at hchain
      exact hchain

theorem interpolateStepSpecWitness :
    List.Chain' (stepRel 1) [({ x := 0, y := 0, pen_down := true } : PathPoint)] :=
  interpolateStepSpec.2.2 [{ x := 0, y := 0, pen_down := true }] 1
    [{ x := 0, y := 0, pen_down := true }] (by norm_num)
    (by simp [interpolate_path, interpSegs])

theorem solveClampSpecWitness :
    (-1 ≤ cos_elbow defaultCfg 0 100 ∧ cos_elbow defaultCfg 0 100 ≤ 1) ∧
    max (-1) (min 1 (cos_elbow defaultCfg 0 100)) = cos_elbow defaultCfg 0 100 ∧
    ¬(cos_elbow defaultCfg 0 100 < -1 ∨ cos_elbow defaultCfg 0 100 > 1) ∧
    solve defaultCfg 0 100 ≠ none :=
  solveClampSpec defaultCfg 0 100 (by norm_num [defaultCfg]) (by norm_num [defaultCfg])
    (by
      rw [is_reachable_iff]
      have h100 : Real.sqrt (10000 : ℝ) = 100 := by
        rw [show (10000 : ℝ) = 100 ^ 2 by norm_num]
        exact Real.sqrt_sq (by norm_num)
      norm_num [defaultCfg, h100])
